import Mathlib

/-!
Verification of the Wayback Link Preserver core pipeline.

This file is a shallow embedding of the checking pipeline found in the
repository's main script (the two-phase variant): the localStorage cache
with the JS string hash, the date formatter, the https upgrade in the
archive lookup, the sequential throttle queue, the bounded-concurrency
liveness worker pool, and the orchestrating `init` function.

Modelling conventions:
* JS numbers that only ever hold epoch milliseconds / durations are `Nat`
  (`Date.now() - entry.t` can be negative in JS when clocks jump back;
  a negative value compares `> ttl` as false, exactly as the truncated
  `Nat` subtraction `now - t = 0` does).
* The signed 32-bit wraparound of `|0` is explicit arithmetic on `Int`.
* `localStorage` per namespace is an association list from storage key to a
  raw stored value; a stored value that `JSON.parse` would reject is the
  `Raw.malformed` constructor.  The two namespaces ("wlp-l:" and "wlp-a:")
  have distinct key prefixes in the source and are therefore modelled as
  two separate stores.
* Network behaviour is abstracted as oracles: the liveness fetch outcome is
  a function `String → Bool` (resolved / rejected), the availability API is
  a function `String → JsonResp` (`nullResp` covers both the JSONP timeout
  and a script error, which resolve `null` in the source).
* The event-loop interleavings of the worker pool and the throttle queue
  are made explicit: the pool takes an arbitrary completion schedule, the
  queue takes arrival-stamped tasks.
-/

namespace WLP

/-! ## The JS string hash (`hash` in the source)

`h = (h << 5) - h + str.charCodeAt(i); h |= 0` — the shift wraps to a
signed 32-bit integer first, then the subtraction and addition are exact in
the float64 range, then `|0` wraps again.  The key is
`Math.abs(h).toString(36)`. -/

/-- Wrap an integer to the signed 32-bit range, as JS `|0` does
(`2147483648 = 2^31`, `4294967296 = 2^32`). -/
def wrap32 (x : Int) : Int :=
  (x + 2147483648) % 4294967296 - 2147483648

/-- One step of the rolling hash: `(h << 5) - h + c`, with both the shift
and the final assignment truncated to 32 bits. -/
def hashStep (h : Int) (c : Nat) : Int :=
  wrap32 (wrap32 (h * 32) - h + c)

/-- The rolling hash over the code units of the string (ASCII code points
coincide with JS UTF-16 code units). -/
def jsHash (s : String) : Int :=
  s.data.foldl (fun h ch => hashStep h ch.toNat) 0

/-- Digit character for base 36, `0-9a-z` as JS `toString(36)`. -/
def b36char (d : Nat) : Char :=
  if d < 10 then Char.ofNat (48 + d) else Char.ofNat (87 + d)

/-- Base-36 digits of `n`, most significant first; the fuel argument keeps
the recursion structural (`n + 1` steps always suffice since the argument
at least halves every step). -/
def b36Aux (fuel n : Nat) : List Char :=
  match fuel with
  | 0 => []
  | f + 1 =>
    if n < 36 then [b36char n]
    else b36Aux f (n / 36) ++ [b36char (n % 36)]

/-- JS `Number.prototype.toString(36)` on a nonnegative integer. -/
def toBase36 (n : Nat) : String :=
  ⟨b36Aux (n + 1) n⟩

/-- Storage key for a URL: `Math.abs(hash(url)).toString(36)` (the
namespace prefix is implicit in which store is used). -/
def hashKey (url : String) : String :=
  toBase36 (jsHash url).natAbs

/-! ## The localStorage cache (`cacheGet` / `cacheSet`) -/

/-- A raw stored value: either text `JSON.parse` rejects, or a parsed entry
`{t: storedAt, ...payload}`. -/
inductive Raw (α : Type) where
  | malformed : Raw α
  | entry (t : Nat) (payload : α) : Raw α
deriving DecidableEq

/-- One cache namespace: storage key → raw stored value. -/
def Store (α : Type) : Type := List (String × Raw α)

instance (α : Type) [DecidableEq α] : DecidableEq (Store α) :=
  inferInstanceAs (DecidableEq (List (String × Raw α)))

/-- `localStorage.getItem` on one namespace. -/
def storeLookup (s : Store α) (k : String) : Option (Raw α) :=
  List.lookup k s

/-- `localStorage.removeItem` on one namespace. -/
def storeErase (s : Store α) (k : String) : Store α :=
  List.filter (fun p => p.1 != k) s

/-- `localStorage.setItem` on one namespace (overwrite semantics). -/
def storeSet (s : Store α) (k : String) (v : Raw α) : Store α :=
  (k, v) :: storeErase s k

/-- `cacheGet(prefix, ttl, url)`: read the entry under `prefix+hash(url)`;
absent, unparseable (the `try`/`catch`), or strictly older than `ttl`
counts as a miss; the strictly-expired entry is removed.  Returns the read
result together with the possibly updated store. -/
def cacheGet (s : Store α) (ttl now : Nat) (url : String) :
    Option (Nat × α) × Store α :=
  match storeLookup s (hashKey url) with
  | none => (none, s)
  | some Raw.malformed => (none, s)
  | some (Raw.entry t p) =>
    if now - t > ttl then (none, storeErase s (hashKey url))
    else (some (t, p), s)

/-- `cacheSet(prefix, url, data)`: `data.t = Date.now()` then write.  (The
source swallows a full/unavailable store; the claims under study do not
depend on that failure mode, so the write is modelled as succeeding.) -/
def cacheSet (s : Store α) (now : Nat) (url : String) (payload : α) :
    Store α :=
  storeSet s (hashKey url) (Raw.entry now payload)

/-! ## `formatDate` -/

/-- JS `String.prototype.slice(a, b)` for `0 ≤ a ≤ b`. -/
def strSlice (s : String) (a b : Nat) : String :=
  ⟨(s.data.drop a).take (b - a)⟩

/-- `formatDate(ts)`: `none` models a missing argument; `!ts` is true for
both `undefined` and the empty string, and the empty string also has
length `< 8`, so the two guards collapse to the length test. -/
def formatDate (ts : Option String) : String :=
  match ts with
  | none => "unknown date"
  | some s =>
    if s.length < 8 then "unknown date"
    else strSlice s 0 4 ++ "-" ++ strSlice s 4 6 ++ "-" ++ strSlice s 6 8

/-! ## First theorems: the cache boundary (C7), malformed entries (C9) and
the date formatter (C10). -/

/-- A payload for smoke-test stores. -/
def boolStore (t : Nat) (b : Bool) : Store Bool :=
  [(hashKey "u", Raw.entry t b)]

/-- C7 counterexample: a liveness entry stored at time `0` read with
`ttl = 100` at `now = 100` — the age equals the TTL exactly.  The claim
says the read returns absent and removes the entry; the source's strict
comparison `Date.now() - entry.t > ttl` is false here, so the read returns
the entry and leaves the store untouched. -/
theorem cacheGet_at_ttl_boundary_is_valid :
    cacheGet (boolStore 0 true) 100 100 "u" =
      (some (0, true), boolStore 0 true) ∧
    ¬(cacheGet (boolStore 0 true) 100 100 "u").1 = none := by
  constructor
  · rfl
  · intro h
    simp [cacheGet, boolStore, storeLookup, List.lookup] at h

/-- C7 amended: for an entry stored at `t`, the read expires it (absent
and removed) exactly when `now - t > ttl` strictly; at the boundary
`now - t = ttl` the entry is still returned as valid and not removed. -/
theorem cacheGet_expiry_strict {α : Type} (s : Store α) (ttl now t : Nat)
    (p : α) (url : String)
    (hlook : storeLookup s (hashKey url) = some (Raw.entry t p)) :
    (now - t > ttl →
      cacheGet s ttl now url = (none, storeErase s (hashKey url))) ∧
    (now - t ≤ ttl → cacheGet s ttl now url = (some (t, p), s)) := by
  constructor
  · intro hgt
    simp [cacheGet, hlook, hgt]
  · intro hle
    have hng : ¬(now - t > ttl) := by omega
    simp [cacheGet, hlook, hng]

/-- Witness for `cacheGet_expiry_strict` at concrete inputs, exercising
both the strictly-expired case and the exact-boundary case. -/
theorem cacheGet_expiry_strict_witness :
    cacheGet (boolStore 0 true) 100 101 "u" =
      (none, storeErase (boolStore 0 true) (hashKey "u")) ∧
    cacheGet (boolStore 0 true) 100 100 "u" = (some (0, true), boolStore 0 true) :=
  ⟨(cacheGet_expiry_strict (boolStore 0 true) 100 101 0 true "u" (by decide)).1
      (by decide),
   (cacheGet_expiry_strict (boolStore 0 true) 100 100 0 true "u" (by decide)).2
      (by decide)⟩

/-- C9: a stored value that fails to parse is read back exactly like an
absent entry — the read yields `none` and the store is left unchanged
(`cacheGet` is a total function here, mirroring the `try`/`catch` that
keeps any parse error from reaching the caller). -/
theorem cacheGet_malformed_is_absent {α : Type} (s : Store α)
    (ttl now : Nat) (url : String)
    (h : storeLookup s (hashKey url) = some Raw.malformed) :
    (cacheGet s ttl now url).1 = none ∧ (cacheGet s ttl now url).2 = s := by
  simp [cacheGet, h]

/-- Witness for `cacheGet_malformed_is_absent` on a concrete store holding
unparseable text under the key for `"u"`. -/
theorem cacheGet_malformed_is_absent_witness :
    (cacheGet [(hashKey "u", (Raw.malformed : Raw Bool))] 100 50 "u").1 = none ∧
    (cacheGet [(hashKey "u", (Raw.malformed : Raw Bool))] 100 50 "u").2 =
      [(hashKey "u", (Raw.malformed : Raw Bool))] :=
  cacheGet_malformed_is_absent [(hashKey "u", Raw.malformed)] 100 50 "u" (by decide)

/-- The characters of `formatDate` on a long-enough timestamp. -/
theorem formatDate_long_data (s : String) (h : 8 ≤ s.length) :
    (formatDate (some s)).data =
      s.data.take 4 ++ ['-'] ++ (s.data.drop 4).take 2 ++ ['-'] ++
        (s.data.drop 6).take 2 := by
  simp only [formatDate]
  rw [if_neg (by omega)]
  simp [strSlice, String.data_append]

/-- C10: `formatDate` yields `"unknown date"` for a missing timestamp and
for any timestamp shorter than 8 characters (which covers the empty
string); for a timestamp of at least 8 characters it depends only on the
first eight characters and lays them out as `YYYY-MM-DD`. -/
theorem formatDate_spec (s : String) :
    formatDate none = "unknown date" ∧
    (s.length < 8 → formatDate (some s) = "unknown date") ∧
    (8 ≤ s.length →
      formatDate (some s) = formatDate (some ⟨s.data.take 8⟩) ∧
      (formatDate (some s)).data =
        s.data.take 4 ++ ['-'] ++ (s.data.drop 4).take 2 ++ ['-'] ++
          (s.data.drop 6).take 2) := by
  refine ⟨rfl, ?_, ?_⟩
  · intro h
    simp [formatDate, h]
  · intro h
    have hlen : s.length = s.data.length := rfl
    refine ⟨?_, formatDate_long_data s h⟩
    have h8 : (String.mk (s.data.take 8)).length = 8 := by
      show (s.data.take 8).length = 8
      rw [List.length_take]
      omega
    apply String.ext
    rw [formatDate_long_data s h, formatDate_long_data ⟨s.data.take 8⟩ (by omega)]
    show _ = (s.data.take 8).take 4 ++ _ ++ ((s.data.take 8).drop 4).take 2 ++ _
      ++ ((s.data.take 8).drop 6).take 2
    rw [List.take_take, List.drop_take, List.drop_take, List.take_take,
      List.take_take]
    norm_num

/-- Witness for `formatDate_spec`: the short case and the long case on a
real 14-digit Wayback timestamp. -/
theorem formatDate_spec_witness :
    formatDate (some "202") = "unknown date" ∧
    formatDate (some "20230101000000") =
      formatDate (some ⟨("20230101000000" : String).data.take 8⟩) :=
  ⟨(formatDate_spec "202").2.1 (by decide),
   ((formatDate_spec "20230101000000").2.2 (by decide)).1⟩

/-! ## The throttle queue (`createQueue`)

`createQueue(delay)` keeps a FIFO `items` list and a `running` flag.
`next()` shifts the head item, runs it, and when it completes either arms
`setTimeout(next, delay)` if more items are pending or clears `running`;
`add` pushes an item and calls `next()` immediately iff `running` is
false.

Under the single-threaded event-loop semantics this produces the
following schedule for tasks submitted at nondecreasing arrival times:

* the first task starts at its arrival time (the queue is idle);
* a task that is already queued when its predecessor completes (arrival ≤
  that completion) starts exactly `delay` after that completion, via the
  armed timer;
* a task that arrives after the queue has drained (`running` was reset to
  false at the predecessor's completion) starts at its own arrival time —
  `add` invokes `next()` at once and no delay is inserted.

A task is described by its arrival time and duration; the simulation
returns each task's start and completion times in submission order. -/

/-- Start time of a task arriving at `a` whose predecessor completed at
`pc`: delayed dequeue if it was pending at that completion, immediate
start on `add` otherwise. -/
def queueStart (delay pc a : Nat) : Nat :=
  if a ≤ pc then pc + delay else a

/-- A pending task is dequeued exactly `delay` after the completion. -/
theorem queueStart_pending {delay pc a : Nat} (h : a ≤ pc) :
    queueStart delay pc a = pc + delay :=
  if_pos h

/-- Arrival times are nondecreasing (tasks are submitted in time order). -/
def arrivalsSorted : List (Nat × Nat) → Bool
  | [] => true
  | [_] => true
  | p :: q :: rest => (decide (p.1 ≤ q.1)) && arrivalsSorted (q :: rest)

/-- The start/completion schedule of the queue; `prev` is the completion
time of the previously executed task, if any. -/
def queueSched (delay : Nat) (prev : Option Nat) (adds : List (Nat × Nat)) :
    List (Nat × Nat) :=
  match adds with
  | [] => []
  | (a, d) :: rest =>
    match prev with
    | none => (a, a + d) :: queueSched delay (some (a + d)) rest
    | some pc =>
      (queueStart delay pc a, queueStart delay pc a + d) ::
        queueSched delay (some (queueStart delay pc a + d)) rest

/-- Schedule of a freshly created queue. -/
def queueRun (delay : Nat) (adds : List (Nat × Nat)) : List (Nat × Nat) :=
  queueSched delay none adds

/-- The schedule covers every submitted task. -/
theorem queueSched_length (delay : Nat) :
    ∀ (adds : List (Nat × Nat)) (prev : Option Nat),
      (queueSched delay prev adds).length = adds.length := by
  intro adds
  induction adds with
  | nil => intro prev; cases prev <;> rfl
  | cons hd rest ih =>
    intro prev
    obtain ⟨a, d⟩ := hd
    cases prev <;> simp [queueSched, ih]

/-- Every start time in a schedule resumed after a completion at `pc` is
at least `pc`: the queue never reaches back in time. -/
theorem queueSched_head_ge (delay pc : Nat) (adds : List (Nat × Nat)) :
    ∀ b ∈ (queueSched delay (some pc) adds).head?, pc ≤ b.1 := by
  cases adds with
  | nil => intro b hb; simp [queueSched] at hb
  | cons hd rest =>
    obtain ⟨a, d⟩ := hd
    intro b hb
    simp [queueSched] at hb
    rw [← hb]
    simp only [queueStart]
    split <;> omega

/-- No two tasks are ever in flight simultaneously: each task starts no
earlier than its predecessor's completion. -/
theorem queueSched_no_overlap (delay : Nat) :
    ∀ (adds : List (Nat × Nat)) (prev : Option Nat),
      (queueSched delay prev adds).Chain' (fun p q => p.2 ≤ q.1) := by
  intro adds
  induction adds with
  | nil => intro prev; cases prev <;> exact List.chain'_nil
  | cons hd rest ih =>
    intro prev
    obtain ⟨a, d⟩ := hd
    cases prev with
    | none =>
      rw [queueSched, List.chain'_cons']
      exact ⟨queueSched_head_ge delay (a + d) rest, ih (some (a + d))⟩
    | some pc =>
      rw [queueSched, List.chain'_cons']
      exact ⟨queueSched_head_ge delay (queueStart delay pc a + d) rest,
        ih (some (queueStart delay pc a + d))⟩

/-- A task pending at its predecessor's completion starts exactly `delay`
later (the `setTimeout(next, delay)` path). -/
theorem queueSched_gap (delay : Nat) :
    ∀ (adds : List (Nat × Nat)) (prev : Option Nat),
      ∀ x ∈ ((queueSched delay prev adds).zip
              (queueSched delay prev adds).tail).zip adds.tail,
        x.2.1 ≤ x.1.1.2 → x.1.2.1 = x.1.1.2 + delay := by
  intro adds
  induction adds with
  | nil => intro prev x hx; cases prev <;> simp [queueSched] at hx
  | cons hd rest ih =>
    intro prev x hx hpend
    obtain ⟨a, d⟩ := hd
    cases rest with
    | nil =>
      cases prev <;> simp [queueSched] at hx
    | cons hd2 rest2 =>
      obtain ⟨a2, d2⟩ := hd2
      cases prev with
      | none =>
        rw [queueSched] at hx
        rw [show queueSched delay (some (a + d)) ((a2, d2) :: rest2) =
              (queueStart delay (a + d) a2, queueStart delay (a + d) a2 + d2) ::
                queueSched delay (some (queueStart delay (a + d) a2 + d2)) rest2
            from rfl] at hx
        simp only [List.zip_cons_cons, List.tail_cons, List.mem_cons] at hx
        rcases hx with hx | hx
        · subst hx
          exact queueStart_pending hpend
        · have := ih (some (a + d))
          rw [show queueSched delay (some (a + d)) ((a2, d2) :: rest2) =
                (queueStart delay (a + d) a2, queueStart delay (a + d) a2 + d2) ::
                  queueSched delay (some (queueStart delay (a + d) a2 + d2)) rest2
              from rfl] at this
          exact this x (by simpa using hx) hpend
      | some pc =>
        rw [queueSched] at hx
        rw [show queueSched delay (some (queueStart delay pc a + d))
                ((a2, d2) :: rest2) =
              (queueStart delay (queueStart delay pc a + d) a2,
               queueStart delay (queueStart delay pc a + d) a2 + d2) ::
                queueSched delay
                  (some (queueStart delay (queueStart delay pc a + d) a2 + d2))
                  rest2
            from rfl] at hx
        simp only [List.zip_cons_cons, List.tail_cons, List.mem_cons] at hx
        rcases hx with hx | hx
        · subst hx
          exact queueStart_pending hpend
        · have := ih (some (queueStart delay pc a + d))
          rw [show queueSched delay (some (queueStart delay pc a + d))
                  ((a2, d2) :: rest2) =
                (queueStart delay (queueStart delay pc a + d) a2,
                 queueStart delay (queueStart delay pc a + d) a2 + d2) ::
                  queueSched delay
                    (some (queueStart delay (queueStart delay pc a + d) a2 + d2))
                    rest2
              from rfl] at this
          exact this x (by simpa using hx) hpend

/-- C4 counterexample: with the default delay of 350 ms, a first task
submitted at t=0 runs for 100 ms and completes at t=100 with the queue
empty, so `running` is cleared; a second task submitted at t=150 — after
the first task completed — starts immediately at t=150, only 50 ms after
the completion, not ≥ 350 ms after it. -/
theorem createQueue_delay_counterexample :
    queueRun 350 [(0, 100), (150, 10)] = [(0, 100), (150, 160)] ∧
    ¬(100 + 350 ≤ 150) := by
  constructor
  · rfl
  · decide

/-- C4 amended: tasks never overlap (each start is at or after the
previous completion), and whenever the next task was already queued at the
moment task `i` completed, its start is exactly `delay` after that
completion; a task submitted after the queue drained starts at its own
arrival time instead, without the delay. -/
theorem createQueue_schedule_spec (delay : Nat) (adds : List (Nat × Nat))
    (_hs : arrivalsSorted adds = true) :
    (queueRun delay adds).length = adds.length ∧
    (queueRun delay adds).Chain' (fun p q => p.2 ≤ q.1) ∧
    (∀ x ∈ ((queueRun delay adds).zip (queueRun delay adds).tail).zip adds.tail,
      x.2.1 ≤ x.1.1.2 → x.1.2.1 = x.1.1.2 + delay) :=
  ⟨queueSched_length delay adds none,
   queueSched_no_overlap delay adds none,
   queueSched_gap delay adds none⟩

/-- Witness for `createQueue_schedule_spec` on a concrete time-ordered
submission list. -/
theorem createQueue_schedule_spec_witness :
    arrivalsSorted ([(0, 100), (100, 10), (600, 5)] : List (Nat × Nat)) = true ∧
    ((queueRun 350 [(0, 100), (100, 10), (600, 5)]).length =
        ([(0, 100), (100, 10), (600, 5)] : List (Nat × Nat)).length ∧
      (queueRun 350 [(0, 100), (100, 10), (600, 5)]).Chain'
        (fun p q => p.2 ≤ q.1) ∧
      (∀ x ∈ ((queueRun 350 [(0, 100), (100, 10), (600, 5)]).zip
              (queueRun 350 [(0, 100), (100, 10), (600, 5)]).tail).zip
              ([(0, 100), (100, 10), (600, 5)] : List (Nat × Nat)).tail,
        x.2.1 ≤ x.1.1.2 → x.1.2.1 = x.1.1.2 + 350)) :=
  ⟨by decide,
   createQueue_schedule_spec 350 [(0, 100), (100, 10), (600, 5)] (by decide)⟩

/-! ## The liveness worker pool (`checkAllLiveness`)

`checkAllLiveness(urls)` copies the urls into a shared pending queue,
starts `Math.min(config.concurrency, urls.length)` workers, and each
worker repeatedly shifts the next url, awaits its liveness check, records
`results[url] = alive`, and loops until the queue is empty.

The event-loop interleaving is modelled by an explicit scheduler: a pool
state holds the pending queue, the urls currently held by workers
(in flight), and the results object; each step picks one in-flight url by
index (the check that completes next), records its result, and hands its
worker the head of the pending queue, if any.  The outcome of one url's
check (cache or network) is abstracted as an oracle `String → Bool`. -/

/-- JS object property assignment `m[k] = v` on an association list. -/
def listSet {β : Type} (m : List (String × β)) (k : String) (v : β) :
    List (String × β) :=
  (k, v) :: List.filter (fun p => p.1 != k) m

/-- Keyed lookup ignores entries filtered out under a different key. -/
theorem lookup_filter_ne {β : Type} (m : List (String × β)) (k u : String)
    (h : ¬u = k) :
    List.lookup u (List.filter (fun p => p.1 != k) m) = List.lookup u m := by
  induction m with
  | nil => rfl
  | cons hd t ih =>
    obtain ⟨a, b⟩ := hd
    by_cases hak : a = k
    · subst hak
      have hua : (u == a) = false := by simp [h]
      simp [List.filter, List.lookup, hua, ih]
    · have : (a != k) = true := by simp [hak]
      simp only [List.filter, this]
      by_cases hua : u = a
      · subst hua; simp [List.lookup]
      · have h1 : (u == a) = false := by simp [hua]
        simp [List.lookup, h1, ih]

/-- Looking up the key just assigned returns the assigned value. -/
theorem listSet_lookup_self {β : Type} (m : List (String × β)) (k : String)
    (v : β) : List.lookup k (listSet m k v) = some v := by
  simp [listSet, List.lookup]

/-- Assigning one key leaves every other key's lookup unchanged. -/
theorem listSet_lookup_ne {β : Type} (m : List (String × β)) (k u : String)
    (v : β) (h : ¬u = k) : List.lookup u (listSet m k v) = List.lookup u m := by
  have h1 : (u == k) = false := by simp [h]
  simp [listSet, List.lookup, h1, lookup_filter_ne m k u h]

/-- A key present among an association list's keys has a looked-up value,
and that binding is a member of the list. -/
theorem lookup_of_mem_keys {β : Type} :
    ∀ (m : List (String × β)) (u : String), u ∈ m.map Prod.fst →
      ∃ v, List.lookup u m = some v ∧ (u, v) ∈ m := by
  intro m
  induction m with
  | nil => intro u hu; simp at hu
  | cons hd t ih =>
    intro u hu
    obtain ⟨a, b⟩ := hd
    by_cases hua : u = a
    · subst hua
      exact ⟨b, by simp [List.lookup], by simp⟩
    · have h1 : (u == a) = false := by simp [hua]
      simp only [List.map, List.mem_cons] at hu
      rcases hu with hu | hu
      · exact absurd hu hua
      · obtain ⟨v, hv, hmem⟩ := ih u hu
        exact ⟨v, by simp [List.lookup, h1, hv], by simp [hmem]⟩

/-- A binding looked up in an association list is a member of it. -/
theorem mem_of_lookup_eq_some {β : Type} :
    ∀ (m : List (String × β)) (u : String) (v : β),
      List.lookup u m = some v → (u, v) ∈ m := by
  intro m
  induction m with
  | nil => intro u v h; simp [List.lookup] at h
  | cons hd t ih =>
    intro u v h
    obtain ⟨a, b⟩ := hd
    by_cases hua : u = a
    · subst hua
      simp [List.lookup] at h
      simp [h]
    · have h1 : (u == a) = false := by simp [hua]
      simp only [List.lookup, h1] at h
      simp [ih u v h]

/-- Removing the element at a valid index and re-consing it is a
permutation of the original list. -/
theorem get_cons_eraseIdx_perm {α : Type} :
    ∀ (l : List α) (i : Nat) (h : i < l.length),
      (l.get ⟨i, h⟩ :: l.eraseIdx i).Perm l := by
  intro l
  induction l with
  | nil => intro i h; simp at h
  | cons a t ih =>
    intro i h
    cases i with
    | zero => exact List.Perm.refl _
    | succ j =>
      have hj : j < t.length := by simpa using h
      show List.Perm (t.get ⟨j, hj⟩ :: a :: t.eraseIdx j) (a :: t)
      exact (List.Perm.swap a _ _).trans ((ih j hj).cons a)

/-- State of the worker pool: pending urls, urls held by workers, and the
results object. -/
structure PoolState where
  queue : List String
  inflight : List String
  results : List (String × Bool)
deriving DecidableEq

/-- The spawn loop: `Math.min(concurrency, urls.length)` workers each
immediately shift one url from the shared queue. -/
def poolInit (k : Nat) (urls : List String) : PoolState :=
  ⟨urls.drop (min k urls.length), urls.take (min k urls.length), []⟩

/-- One completion: the check for the `i`-th in-flight url resolves, its
result is recorded, and its worker shifts the next pending url (or stops
when the queue is empty).  An out-of-range index is a no-op. -/
def poolStep (oracle : String → Bool) (s : PoolState) (i : Nat) : PoolState :=
  if h : i < s.inflight.length then
    ⟨s.queue.drop 1, s.inflight.eraseIdx i ++ s.queue.take 1,
      listSet s.results (s.inflight.get ⟨i, h⟩)
        (oracle (s.inflight.get ⟨i, h⟩))⟩
  else s

/-- Run the pool under an arbitrary completion schedule. -/
def poolRun (oracle : String → Bool) (s0 : PoolState) (choices : List Nat) :
    PoolState :=
  choices.foldl (poolStep oracle) s0

/-- All urls a pool state accounts for: recorded, in flight, or pending. -/
def poolElems (s : PoolState) : List String :=
  s.results.map Prod.fst ++ s.inflight ++ s.queue

/-- A step never grows the number of in-flight checks beyond any bound it
already satisfies. -/
theorem poolStep_inflight_le (oracle : String → Bool) (s : PoolState)
    (i : Nat) (B : Nat) (h : s.inflight.length ≤ B) :
    (poolStep oracle s i).inflight.length ≤ B := by
  unfold poolStep
  split
  · rename_i hi
    have h1 : (s.inflight.eraseIdx i).length = s.inflight.length - 1 := by
      rw [List.length_eraseIdx, if_pos hi]
    have h2 : (s.queue.take 1).length ≤ 1 := by
      simp [List.length_take]
    simp only [List.length_append]
    omega
  · exact h

/-- The in-flight bound is invariant under any schedule. -/
theorem poolRun_inflight_le (oracle : String → Bool) (B : Nat) :
    ∀ (choices : List Nat) (s : PoolState), s.inflight.length ≤ B →
      (poolRun oracle s choices).inflight.length ≤ B := by
  intro choices
  induction choices with
  | nil => intro s h; exact h
  | cons c cs ih =>
    intro s h
    exact ih (poolStep oracle s c) (poolStep_inflight_le oracle s c B h)

/-- One step preserves the accounted multiset of urls and the attribution
of recorded results, given that no url is accounted for twice. -/
theorem poolStep_inv (oracle : String → Bool) (s : PoolState) (i : Nat)
    (hnd : (poolElems s).Nodup)
    (hval : ∀ p ∈ s.results, p.2 = oracle p.1) :
    (poolElems (poolStep oracle s i)).Perm (poolElems s) ∧
    (∀ p ∈ (poolStep oracle s i).results, p.2 = oracle p.1) := by
  by_cases hi : i < s.inflight.length
  · unfold poolStep
    rw [dif_pos hi]
    set u := s.inflight.get ⟨i, hi⟩ with hu
    have humem : u ∈ s.inflight := List.get_mem s.inflight i hi
    have hnotin : u ∉ s.results.map Prod.fst := by
      intro habs
      have hsplit : ¬(s.results.map Prod.fst).Disjoint
          (s.inflight ++ s.queue) := by
        intro hdisj
        exact hdisj habs (by simp [humem])
      rw [poolElems, List.append_assoc, List.nodup_append] at hnd
      exact hsplit hnd.2.2
    have hfilter : List.filter (fun p => p.1 != u) s.results = s.results := by
      apply List.filter_eq_self.mpr
      intro p hp
      simp only [bne_iff_ne, ne_eq, decide_eq_true_eq]
      intro habs
      exact hnotin (habs ▸ List.mem_map_of_mem Prod.fst hp)
    constructor
    · show ((listSet s.results u (oracle u)).map Prod.fst ++
          (s.inflight.eraseIdx i ++ s.queue.take 1) ++ s.queue.drop 1).Perm
          (poolElems s)
      rw [listSet, hfilter]
      have e1 : ((u, oracle u) :: s.results).map Prod.fst ++
            (s.inflight.eraseIdx i ++ s.queue.take 1) ++ s.queue.drop 1 =
          u :: (s.results.map Prod.fst ++
            (s.inflight.eraseIdx i ++ (s.queue.take 1 ++ s.queue.drop 1))) := by
        simp [List.append_assoc]
      have p1 : List.Perm
          (u :: (s.results.map Prod.fst ++
            (s.inflight.eraseIdx i ++ (s.queue.take 1 ++ s.queue.drop 1))))
          (s.results.map Prod.fst ++
            (u :: (s.inflight.eraseIdx i ++ (s.queue.take 1 ++ s.queue.drop 1)))) :=
        List.perm_middle.symm
      have e2 : s.results.map Prod.fst ++
            (u :: (s.inflight.eraseIdx i ++ (s.queue.take 1 ++ s.queue.drop 1))) =
          s.results.map Prod.fst ++
            ((u :: s.inflight.eraseIdx i) ++ s.queue) := by
        rw [List.take_append_drop, List.cons_append]
      have p2 : List.Perm
          (s.results.map Prod.fst ++ ((u :: s.inflight.eraseIdx i) ++ s.queue))
          (s.results.map Prod.fst ++ (s.inflight ++ s.queue)) :=
        List.Perm.append_left _
          (List.Perm.append_right _ (get_cons_eraseIdx_perm _ i hi))
      have e3 : s.results.map Prod.fst ++ (s.inflight ++ s.queue) =
          poolElems s := by
        rw [poolElems, List.append_assoc]
      rw [e1]
      refine p1.trans ?_
      rw [e2, ← e3]
      exact p2
    · intro p hp
      rw [listSet, hfilter] at hp
      rcases List.mem_cons.mp hp with hp | hp
      · subst hp; rfl
      · exact hval p hp
  · unfold poolStep
    rw [dif_neg hi]
    exact ⟨List.Perm.refl _, hval⟩

/-- The accounted multiset and the attribution invariant hold under any
schedule, starting from any state accounting exactly for `urls`. -/
theorem poolRun_inv (oracle : String → Bool) (urls : List String)
    (hnd : urls.Nodup) :
    ∀ (choices : List Nat) (s : PoolState), (poolElems s).Perm urls →
      (∀ p ∈ s.results, p.2 = oracle p.1) →
      (poolElems (poolRun oracle s choices)).Perm urls ∧
      (∀ p ∈ (poolRun oracle s choices).results, p.2 = oracle p.1) := by
  intro choices
  induction choices with
  | nil => intro s hperm hval; exact ⟨hperm, hval⟩
  | cons c cs ih =>
    intro s hperm hval
    have hnds : (poolElems s).Nodup := (hperm.nodup_iff).mpr hnd
    obtain ⟨h1, h2⟩ := poolStep_inv oracle s c hnds hval
    exact ih (poolStep oracle s c) (h1.trans hperm) h2

/-- C5: the pool starts exactly `min(K, len(urls))` workers; under every
completion schedule at most `K` checks are ever in flight; the recorded,
in-flight and pending urls always account exactly for the input; every
recorded result is the oracle's answer for its url; and once the pool has
drained, the results object maps each input url to its own result,
regardless of the completion order taken. -/
theorem checkAllLiveness_pool_spec (k : Nat) (urls : List String)
    (oracle : String → Bool) (choices : List Nat) (hnd : urls.Nodup) :
    (poolInit k urls).inflight.length = min k urls.length ∧
    (poolRun oracle (poolInit k urls) choices).inflight.length ≤ k ∧
    (poolElems (poolRun oracle (poolInit k urls) choices)).Perm urls ∧
    (∀ p ∈ (poolRun oracle (poolInit k urls) choices).results,
      p.2 = oracle p.1) ∧
    ((poolRun oracle (poolInit k urls) choices).inflight = [] →
      (poolRun oracle (poolInit k urls) choices).queue = [] →
      ∀ u ∈ urls,
        List.lookup u (poolRun oracle (poolInit k urls) choices).results =
          some (oracle u)) := by
  have hinit : (poolInit k urls).inflight.length = min k urls.length := by
    simp [poolInit, List.length_take]
  have hperm0 : (poolElems (poolInit k urls)).Perm urls := by
    simp only [poolElems, poolInit, List.map_nil, List.nil_append]
    rw [List.take_append_drop]
  obtain ⟨hperm, hval⟩ :=
    poolRun_inv oracle urls hnd choices (poolInit k urls) hperm0 (by simp [poolInit])
  refine ⟨hinit, ?_, hperm, hval, ?_⟩
  · exact poolRun_inflight_le oracle k choices (poolInit k urls)
      (by rw [hinit]; omega)
  · intro hinf hq u hu
    have hmem : u ∈ poolElems (poolRun oracle (poolInit k urls) choices) :=
      (hperm.mem_iff).mpr hu
    rw [poolElems, hinf, hq, List.append_nil, List.append_nil] at hmem
    obtain ⟨v, hv, hvmem⟩ := lookup_of_mem_keys _ u hmem
    rw [hv]
    exact congrArg some (hval (u, v) hvmem)

/-- Witness for `checkAllLiveness_pool_spec`: two workers over three urls,
scheduled first-in-first-out. -/
theorem checkAllLiveness_pool_spec_witness :
    (["a", "b", "c"] : List String).Nodup ∧
    ((poolInit 2 ["a", "b", "c"]).inflight.length = min 2 (3 : Nat) ∧
      (poolRun (fun u => u == "a") (poolInit 2 ["a", "b", "c"])
          [0, 0, 0]).inflight.length ≤ 2 ∧
      (poolElems (poolRun (fun u => u == "a") (poolInit 2 ["a", "b", "c"])
          [0, 0, 0])).Perm ["a", "b", "c"] ∧
      (∀ p ∈ (poolRun (fun u => u == "a") (poolInit 2 ["a", "b", "c"])
          [0, 0, 0]).results, p.2 = (p.1 == "a")) ∧
      ((poolRun (fun u => u == "a") (poolInit 2 ["a", "b", "c"])
          [0, 0, 0]).inflight = [] →
        (poolRun (fun u => u == "a") (poolInit 2 ["a", "b", "c"])
          [0, 0, 0]).queue = [] →
        ∀ u ∈ (["a", "b", "c"] : List String),
          List.lookup u (poolRun (fun u => u == "a")
            (poolInit 2 ["a", "b", "c"]) [0, 0, 0]).results =
            some (u == "a"))) :=
  ⟨by decide,
   checkAllLiveness_pool_spec 2 ["a", "b", "c"] (fun u => u == "a") [0, 0, 0]
     (by decide)⟩

/-! ## Liveness check, archive lookup, and the orchestrating `init`

The network is abstracted by two oracles: the liveness fetch outcome per
url (`true` = the fetch resolved, `false` = rejected or aborted by the
timeout), and the availability API response per url.  Each run uses a
single timestamp `now` for `Date.now()`.

`init` is modelled as the sequential composition the code's barriers
enforce: phase 1 (all liveness checks, whose mutual interleaving cannot
change any per-url outcome except through hash-key collisions, which the
theorems that need it exclude by hypothesis), the `Promise.all` barrier,
then phase 2 over the broken urls in order.  The network trace lists the
issued requests in order. -/

/-- A network request issued by the pipeline. -/
inductive NetEvent where
  | live (url : String) : NetEvent
  | arch (url : String) : NetEvent
deriving DecidableEq

/-- The url a request was issued for. -/
def NetEvent.url : NetEvent → String
  | live u => u
  | arch u => u

/-- Whether an event is a phase-1 liveness fetch. -/
def NetEvent.isLive : NetEvent → Bool
  | live _ => true
  | arch _ => false

/-- Whether an event is a phase-2 availability lookup. -/
def NetEvent.isArch : NetEvent → Bool
  | live _ => false
  | arch _ => true

/-- What the JSONP availability request for a url delivers, mirroring the
truthiness chain `data && data.archived_snapshots &&
data.archived_snapshots.closest && data.archived_snapshots.closest
.available`: `nullResp` is the `null` produced by the JSONP timeout or a
script error; the other constructors are payloads with the chain broken at
the respective level; `closest` carries `available`, `url`, `timestamp`. -/
inductive JsonResp where
  | nullResp : JsonResp
  | noSnapshots : JsonResp
  | noClosest : JsonResp
  | closest (available : Bool) (url : String) (timestamp : String) : JsonResp
deriving DecidableEq

/-- The guard of `checkArchive`: a usable closest snapshot is reported. -/
def hasSnapshot : JsonResp → Bool
  | JsonResp.closest true _ _ => true
  | _ => false

/-- `snap.url.replace(/^http:\x2f\x2f/, "https:\x2f\x2f")` — a leading
`http://` is upgraded, anything else left alone (`"http://".length = 7`;
the prefix test is on the characters). -/
def httpsUpgrade (s : String) : String :=
  if s.data.take 7 = ("http://" : String).data then "https://" ++ ⟨s.data.drop 7⟩
  else s

/-- What the archive cache stores per url: `{u: archiveUrl, ts: timestamp}`
for a hit, the empty object (both fields absent) for NotArchived. -/
structure ArchPayload where
  u : Option String
  ts : Option String
deriving DecidableEq

/-- The result `checkArchive` resolves with:
`{archived, archiveUrl?, timestamp?}`. -/
structure ArchResult where
  archived : Bool
  archiveUrl : Option String
  timestamp : Option String
deriving DecidableEq

/-- JS truthiness of a possibly-absent string (`undefined` and `""` are
falsy). -/
def jsTruthy : Option String → Bool
  | none => false
  | some s => !s.isEmpty

/-- `checkLiveness(url)`: cached value if fresh, otherwise one network
probe whose boolean outcome is cached either way.  Returns the boolean,
the updated liveness store, and the requests issued. -/
def checkLiveness (ttl now : Nat) (live : String → Bool) (s : Store Bool)
    (url : String) : Bool × Store Bool × List NetEvent :=
  match cacheGet s ttl now url with
  | (some (_, alive), s1) => (alive, s1, [])
  | (none, s1) =>
    (live url, cacheSet s1 now url (live url), [NetEvent.live url])

/-- `checkArchive(url, queue)`: a fresh cache entry is replayed
(`archived: !!cached.u, archiveUrl: cached.u || undefined, timestamp:
cached.ts || undefined`) with no request; otherwise the availability API
is queried through the throttle queue, the result is built (with the
https upgrade) and cached — the empty payload object for NotArchived. -/
def checkArchive (ttl now : Nat) (resp : String → JsonResp)
    (s : Store ArchPayload) (url : String) :
    ArchResult × Store ArchPayload × List NetEvent :=
  match cacheGet s ttl now url with
  | (some (_, p), s1) =>
    (⟨jsTruthy p.u, if jsTruthy p.u then p.u else none,
      if jsTruthy p.ts then p.ts else none⟩, s1, [])
  | (none, s1) =>
    match resp url with
    | JsonResp.closest true snapUrl snapTs =>
      (⟨true, some (httpsUpgrade snapUrl), some snapTs⟩,
       cacheSet s1 now url ⟨some (httpsUpgrade snapUrl), some snapTs⟩,
       [NetEvent.arch url])
    | _ =>
      (⟨false, none, none⟩, cacheSet s1 now url ⟨none, none⟩,
       [NetEvent.arch url])

/-- Phase 1 over the retained urls: each liveness outcome is recorded in
the results object. -/
def phase1 (ttl now : Nat) (live : String → Bool) :
    Store Bool → List (String × Bool) → List String →
    List (String × Bool) × Store Bool × List NetEvent
  | s, acc, [] => (acc, s, [])
  | s, acc, u :: rest =>
    let c := checkLiveness ttl now live s u
    let r := phase1 ttl now live c.2.1 (listSet acc u c.1) rest
    (r.1, r.2.1, c.2.2 ++ r.2.2)

/-- Phase 2 over the broken urls: each archive result is attributed to its
url. -/
def phase2 (ttl now : Nat) (resp : String → JsonResp) :
    Store ArchPayload → List (String × ArchResult) → List String →
    List (String × ArchResult) × Store ArchPayload × List NetEvent
  | s, acc, [] => (acc, s, [])
  | s, acc, u :: rest =>
    let c := checkArchive ttl now resp s u
    let r := phase2 ttl now resp c.2.1 (listSet acc u c.1) rest
    (r.1, r.2.1, c.2.2 ++ r.2.2)

/-- Recognized configuration (`config` in the source, after `||` defaults;
only the fields the checking pipeline reads). -/
structure Config where
  cacheDays : Nat
  livenessCacheDays : Nat
  checkDelay : Nat
  maxLinksPerPage : Nat
  concurrency : Nat
deriving DecidableEq

/-- The default configuration. -/
def defaultConfig : Config :=
  ⟨7, 1, 350, 30, 6⟩

/-- `LIVE_TTL = config.livenessCacheDays * 86400000`. -/
def liveTTL (cfg : Config) : Nat := cfg.livenessCacheDays * 86400000

/-- `ARCH_TTL = config.cacheDays * 86400000`. -/
def archTTL (cfg : Config) : Nat := cfg.cacheDays * 86400000

/-- The per-url outcome the pipeline exposes to the rendering layer:
liveness, and — for broken urls only — the archive result. -/
structure CheckResult where
  url : String
  alive : Bool
  archive : Option ArchResult
deriving DecidableEq

/-- Everything one `init` run produces: per-url results, the two updated
cache namespaces, and the network requests issued, in order. -/
structure RunOut where
  results : List CheckResult
  liveStore : Store Bool
  archStore : Store ArchPayload
  trace : List NetEvent

/-- The dedup-by-href of `collectLinks` (`order` holds each normalized
href once, at its first occurrence). -/
def collectOrder (hrefs : List String) : List String :=
  hrefs.foldl (fun acc h => if h ∈ acc then acc else acc ++ [h]) []

/-- `init`: cap the deduplicated urls at `maxLinksPerPage`, run phase 1
over all of them, collect the urls with falsy liveness, stop if none are
broken, otherwise run phase 2 over exactly the broken urls. -/
def runInit (cfg : Config) (live : String → Bool) (resp : String → JsonResp)
    (ls : Store Bool) (as : Store ArchPayload) (now : Nat)
    (order : List String) : RunOut :=
  let urls := order.take cfg.maxLinksPerPage
  let p1 := phase1 (liveTTL cfg) now live ls [] urls
  let broken := urls.filter (fun u => !((List.lookup u p1.1).getD false))
  if broken.isEmpty then
    ⟨urls.map (fun u => ⟨u, (List.lookup u p1.1).getD false, none⟩),
     p1.2.1, as, p1.2.2⟩
  else
    let p2 := phase2 (archTTL cfg) now resp as [] broken
    ⟨urls.map (fun u =>
        ⟨u, (List.lookup u p1.1).getD false,
         if (List.lookup u p1.1).getD false then none
         else List.lookup u p2.1⟩),
     p1.2.1, p2.2.1, p1.2.2 ++ p2.2.2⟩

/-! ### Replay and miss lemmas for the two check functions -/

/-- `storeSet` and `listSet` are the same association-list update. -/
theorem storeSet_eq_listSet {α : Type} (s : Store α) (k : String)
    (v : Raw α) : storeSet s k v = listSet s k v := rfl

/-- A fresh liveness entry is replayed with no network request. -/
theorem checkLiveness_hit (ttl now : Nat) (live : String → Bool)
    (s : Store Bool) (url : String) (t : Nat) (b : Bool)
    (hl : storeLookup s (hashKey url) = some (Raw.entry t b))
    (ht : now - t ≤ ttl) :
    checkLiveness ttl now live s url = (b, s, []) := by
  have hc : cacheGet s ttl now url = (some (t, b), s) :=
    (cacheGet_expiry_strict s ttl now t b url hl).2 ht
  simp [checkLiveness, hc]

/-- On a cache miss the probe is issued and its outcome cached. -/
theorem checkLiveness_miss (ttl now : Nat) (live : String → Bool)
    (s : Store Bool) (url : String)
    (hmiss : (cacheGet s ttl now url).1 = none) :
    checkLiveness ttl now live s url =
      (live url, cacheSet (cacheGet s ttl now url).2 now url (live url),
       [NetEvent.live url]) := by
  rcases hcg : cacheGet s ttl now url with ⟨v, s1⟩
  rw [hcg] at hmiss
  simp only at hmiss
  subst hmiss
  simp [checkLiveness, hcg]

/-- A fresh archive entry is replayed with no network request. -/
theorem checkArchive_hit (ttl now : Nat) (resp : String → JsonResp)
    (s : Store ArchPayload) (url : String) (t : Nat) (p : ArchPayload)
    (hl : storeLookup s (hashKey url) = some (Raw.entry t p))
    (ht : now - t ≤ ttl) :
    checkArchive ttl now resp s url =
      (⟨jsTruthy p.u, if jsTruthy p.u then p.u else none,
        if jsTruthy p.ts then p.ts else none⟩, s, []) := by
  have hc : cacheGet s ttl now url = (some (t, p), s) :=
    (cacheGet_expiry_strict s ttl now t p url hl).2 ht
  simp [checkArchive, hc]

/-- C2: whenever the availability endpoint reports a usable closest
snapshot for an uncached url, the produced result is archived with the
snapshot url passed through the https upgrade and the snapshot timestamp
kept; concretely, the crafted response with a `http://` snapshot url
yields the `https://` archive url, and its timestamp formats as
`2023-01-01`. -/
theorem checkArchive_https_upgrade (ttl now : Nat) (resp : String → JsonResp)
    (as : Store ArchPayload) (url snapUrl snapTs : String)
    (hmiss : (cacheGet as ttl now url).1 = none)
    (hresp : resp url = JsonResp.closest true snapUrl snapTs) :
    (checkArchive ttl now resp as url).1 =
      ⟨true, some (httpsUpgrade snapUrl), some snapTs⟩ ∧
    httpsUpgrade "http://web.archive.org/web/20230101000000/x" =
      "https://web.archive.org/web/20230101000000/x" ∧
    formatDate (some "20230101000000") = "2023-01-01" := by
  refine ⟨?_, by decide, by decide⟩
  rcases hcg : cacheGet as ttl now url with ⟨v, s1⟩
  rw [hcg] at hmiss
  simp only at hmiss
  subst hmiss
  simp [checkArchive, hcg, hresp]

/-- Witness for `checkArchive_https_upgrade` on the crafted response of
the claim, against an empty archive cache. -/
theorem checkArchive_https_upgrade_witness :
    (cacheGet ([] : Store ArchPayload) (archTTL defaultConfig) 0 "x").1 =
      none ∧
    (checkArchive (archTTL defaultConfig) 0
        (fun _ => JsonResp.closest true
          "http://web.archive.org/web/20230101000000/x" "20230101000000")
        [] "x").1 =
      ⟨true,
       some (httpsUpgrade "http://web.archive.org/web/20230101000000/x"),
       some "20230101000000"⟩ :=
  ⟨rfl,
   (checkArchive_https_upgrade (archTTL defaultConfig) 0
      (fun _ => JsonResp.closest true
        "http://web.archive.org/web/20230101000000/x" "20230101000000")
      [] "x" "http://web.archive.org/web/20230101000000/x" "20230101000000"
      rfl rfl).1⟩

/-- C8: for an uncached url whose lookup times out, errors, or returns a
payload without a usable closest snapshot, `checkArchive` resolves with
NotArchived, issues exactly one availability request, and writes the
empty payload object into the archive namespace stamped `now`; any
further lookup within the archive TTL replays NotArchived from the cache
with no request. -/
theorem checkArchive_not_archived_cached (ttl now : Nat)
    (resp : String → JsonResp) (as : Store ArchPayload) (url : String)
    (hmiss : (cacheGet as ttl now url).1 = none)
    (hresp : hasSnapshot (resp url) = false) :
    (checkArchive ttl now resp as url).1 = ⟨false, none, none⟩ ∧
    (checkArchive ttl now resp as url).2.1 =
      cacheSet (cacheGet as ttl now url).2 now url ⟨none, none⟩ ∧
    (checkArchive ttl now resp as url).2.2 = [NetEvent.arch url] ∧
    (∀ now2, now2 - now ≤ ttl →
      (checkArchive ttl now2 resp
          (checkArchive ttl now resp as url).2.1 url).1 =
        ⟨false, none, none⟩ ∧
      (checkArchive ttl now2 resp
          (checkArchive ttl now resp as url).2.1 url).2.2 = []) := by
  rcases hcg : cacheGet as ttl now url with ⟨v, s1⟩
  rw [hcg] at hmiss
  simp only at hmiss
  subst hmiss
  have hbody : checkArchive ttl now resp as url =
      (⟨false, none, none⟩, cacheSet s1 now url ⟨none, none⟩,
       [NetEvent.arch url]) := by
    cases hr : resp url with
    | nullResp => simp [checkArchive, hcg, hr]
    | noSnapshots => simp [checkArchive, hcg, hr]
    | noClosest => simp [checkArchive, hcg, hr]
    | closest a su st =>
      cases a with
      | true => rw [hr] at hresp; simp [hasSnapshot] at hresp
      | false => simp [checkArchive, hcg, hr]
  refine ⟨by rw [hbody], by simp only [hbody, hcg], by rw [hbody], ?_⟩
  intro now2 hnow2
  rw [hbody]
  have hl : storeLookup (cacheSet s1 now url ⟨none, none⟩) (hashKey url) =
      some (Raw.entry now ⟨none, none⟩) := by
    rw [cacheSet, storeSet_eq_listSet]
    exact listSet_lookup_self _ _ _
  rw [checkArchive_hit ttl now2 resp _ url now ⟨none, none⟩ hl hnow2]
  exact ⟨rfl, rfl⟩

/-! ### Store update lemmas and fresh-lookup results -/

/-- Unfolding `phase1` on an empty url list. -/
theorem phase1_nil (ttl now : Nat) (live : String → Bool) (s : Store Bool)
    (acc : List (String × Bool)) :
    phase1 ttl now live s acc [] = (acc, s, []) := rfl

/-- Unfolding `phase1` on a url followed by the rest. -/
theorem phase1_cons (ttl now : Nat) (live : String → Bool) (s : Store Bool)
    (acc : List (String × Bool)) (u : String) (rest : List String) :
    phase1 ttl now live s acc (u :: rest) =
      ((phase1 ttl now live (checkLiveness ttl now live s u).2.1
          (listSet acc u (checkLiveness ttl now live s u).1) rest).1,
       (phase1 ttl now live (checkLiveness ttl now live s u).2.1
          (listSet acc u (checkLiveness ttl now live s u).1) rest).2.1,
       (checkLiveness ttl now live s u).2.2 ++
         (phase1 ttl now live (checkLiveness ttl now live s u).2.1
            (listSet acc u (checkLiveness ttl now live s u).1) rest).2.2) := rfl

/-- Unfolding `phase2` on an empty url list. -/
theorem phase2_nil (ttl now : Nat) (resp : String → JsonResp)
    (s : Store ArchPayload) (acc : List (String × ArchResult)) :
    phase2 ttl now resp s acc [] = (acc, s, []) := rfl

/-- Unfolding `phase2` on a url followed by the rest. -/
theorem phase2_cons (ttl now : Nat) (resp : String → JsonResp)
    (s : Store ArchPayload) (acc : List (String × ArchResult)) (u : String)
    (rest : List String) :
    phase2 ttl now resp s acc (u :: rest) =
      ((phase2 ttl now resp (checkArchive ttl now resp s u).2.1
          (listSet acc u (checkArchive ttl now resp s u).1) rest).1,
       (phase2 ttl now resp (checkArchive ttl now resp s u).2.1
          (listSet acc u (checkArchive ttl now resp s u).1) rest).2.1,
       (checkArchive ttl now resp s u).2.2 ++
         (phase2 ttl now resp (checkArchive ttl now resp s u).2.1
            (listSet acc u (checkArchive ttl now resp s u).1) rest).2.2) := rfl

/-- Reading back the key just written. -/
theorem storeLookup_set_self {α : Type} (s : Store α) (k : String)
    (v : Raw α) : storeLookup (storeSet s k v) k = some v :=
  listSet_lookup_self s k v

/-- Writing one key leaves every other key unchanged. -/
theorem storeLookup_set_ne {α : Type} (s : Store α) (k k2 : String)
    (v : Raw α) (h : ¬k2 = k) :
    storeLookup (storeSet s k v) k2 = storeLookup s k2 :=
  listSet_lookup_ne s k k2 v h

/-- The result a fresh (uncached) archive lookup resolves with. -/
def archResultOf (resp : String → JsonResp) (u : String) : ArchResult :=
  match resp u with
  | JsonResp.closest true su st => ⟨true, some (httpsUpgrade su), some st⟩
  | _ => ⟨false, none, none⟩

/-- The payload a fresh archive lookup caches. -/
def archPayloadOf (resp : String → JsonResp) (u : String) : ArchPayload :=
  match resp u with
  | JsonResp.closest true su st => ⟨some (httpsUpgrade su), some st⟩
  | _ => ⟨none, none⟩

/-- The result a cached archive entry is replayed as. -/
def archResultOfPayload (p : ArchPayload) : ArchResult :=
  ⟨jsTruthy p.u, if jsTruthy p.u then p.u else none,
   if jsTruthy p.ts then p.ts else none⟩

/-- Wire-contract sanity of one availability response: an available
closest snapshot carries a nonempty snapshot url and a nonempty
timestamp (the endpoint reports an absolute url and a 14-digit
timestamp). -/
def respWF : JsonResp → Bool
  | JsonResp.closest true su st => !su.isEmpty && !st.isEmpty
  | _ => true

/-- On a cache miss the lookup is queued and its outcome cached. -/
theorem checkArchive_miss (ttl now : Nat) (resp : String → JsonResp)
    (s : Store ArchPayload) (url : String)
    (hmiss : (cacheGet s ttl now url).1 = none) :
    checkArchive ttl now resp s url =
      (archResultOf resp url,
       cacheSet (cacheGet s ttl now url).2 now url (archPayloadOf resp url),
       [NetEvent.arch url]) := by
  rcases hcg : cacheGet s ttl now url with ⟨v, s1⟩
  rw [hcg] at hmiss
  simp only at hmiss
  subst hmiss
  cases hr : resp url with
  | nullResp => simp [checkArchive, hcg, hr, archResultOf, archPayloadOf]
  | noSnapshots => simp [checkArchive, hcg, hr, archResultOf, archPayloadOf]
  | noClosest => simp [checkArchive, hcg, hr, archResultOf, archPayloadOf]
  | closest a su st =>
    cases a <;> simp [checkArchive, hcg, hr, archResultOf, archPayloadOf]

/-- Phase 1 over urls none of which is cached, with pairwise distinct
storage keys: every url gets its probe's outcome, the store receives one
fresh entry per url stamped `now`, foreign keys are untouched, and
foreign urls keep their accumulated results. -/
theorem phase1_fresh (ttl now : Nat) (live : String → Bool) :
    ∀ (urls : List String) (s : Store Bool) (acc : List (String × Bool)),
      (∀ u ∈ urls, storeLookup s (hashKey u) = none) →
      (urls.map hashKey).Nodup →
      (∀ u ∈ urls, List.lookup u (phase1 ttl now live s acc urls).1 =
        some (live u)) ∧
      (∀ u ∈ urls, storeLookup (phase1 ttl now live s acc urls).2.1
        (hashKey u) = some (Raw.entry now (live u))) ∧
      (∀ k, (∀ u ∈ urls, k ≠ hashKey u) →
        storeLookup (phase1 ttl now live s acc urls).2.1 k =
          storeLookup s k) ∧
      (∀ u, u ∉ urls → List.lookup u (phase1 ttl now live s acc urls).1 =
        List.lookup u acc) := by
  intro urls
  induction urls with
  | nil =>
    intro s acc _ _
    exact ⟨by simp, by simp, fun k _ => by rw [phase1_nil],
      fun u _ => by rw [phase1_nil]⟩
  | cons u rest ih =>
    intro s acc hfresh hkeys
    have hsl : storeLookup s (hashKey u) = none := hfresh u (by simp)
    have hcg : cacheGet s ttl now u = (none, s) := by
      simp [cacheGet, hsl]
    have hcl : checkLiveness ttl now live s u =
        (live u, cacheSet s now u (live u), [NetEvent.live u]) := by
      simp [checkLiveness, hcg]
    rw [List.map_cons] at hkeys
    have hkcons := List.nodup_cons.mp hkeys
    have hune : ∀ v ∈ rest, ¬hashKey u = hashKey v := by
      intro v hv habs
      exact hkcons.1 (habs ▸ List.mem_map_of_mem hashKey hv)
    have hurest : u ∉ rest := fun habs => hune u habs rfl
    have hfresh2 : ∀ v ∈ rest,
        storeLookup (cacheSet s now u (live u)) (hashKey v) = none := by
      intro v hv
      rw [cacheSet, storeLookup_set_ne _ _ _ _ (fun habs => hune v hv habs.symm)]
      exact hfresh v (by simp [hv])
    obtain ⟨ih1, ih2, ih3, ih4⟩ :=
      ih (cacheSet s now u (live u)) (listSet acc u (live u)) hfresh2 hkcons.2
    rw [phase1_cons, hcl]
    dsimp only
    refine ⟨?_, ?_, ?_, ?_⟩
    · intro v hv
      rcases List.mem_cons.mp hv with hv | hv
      · subst hv
        rw [ih4 v hurest]
        exact listSet_lookup_self acc v (live v)
      · exact ih1 v hv
    · intro v hv
      rcases List.mem_cons.mp hv with hv | hv
      · subst hv
        rw [ih3 (hashKey v) (hune), cacheSet, storeLookup_set_self]
      · exact ih2 v hv
    · intro k hk
      rw [ih3 k (fun v hv => hk v (by simp [hv])), cacheSet,
        storeLookup_set_ne _ _ _ _ (hk u (by simp))]
    · intro v hv
      have hvrest : v ∉ rest := fun habs => hv (by simp [habs])
      have hvu : ¬v = u := fun habs => hv (by simp [habs])
      rw [ih4 v hvrest]
      exact listSet_lookup_ne acc u v (live u) hvu

/-- Phase 1 over urls all of which carry a fresh cached value: the store
is untouched, no request is issued, and every url gets its cached value.
-/
theorem phase1_cached (ttl now t0 : Nat) (live val : String → Bool) :
    ∀ (urls : List String) (s : Store Bool) (acc : List (String × Bool)),
      (∀ u ∈ urls,
        storeLookup s (hashKey u) = some (Raw.entry t0 (val u))) →
      now - t0 ≤ ttl →
      (phase1 ttl now live s acc urls).2.1 = s ∧
      (phase1 ttl now live s acc urls).2.2 = [] ∧
      (∀ u ∈ urls, List.lookup u (phase1 ttl now live s acc urls).1 =
        some (val u)) ∧
      (∀ u, u ∉ urls → List.lookup u (phase1 ttl now live s acc urls).1 =
        List.lookup u acc) := by
  intro urls
  induction urls with
  | nil =>
    intro s acc _ _
    exact ⟨rfl, rfl, by simp, fun u _ => by rw [phase1_nil]⟩
  | cons u rest ih =>
    intro s acc hc ht
    have hcl : checkLiveness ttl now live s u = (val u, s, []) :=
      checkLiveness_hit ttl now live s u t0 (val u) (hc u (by simp)) ht
    obtain ⟨ih1, ih2, ih3, ih4⟩ :=
      ih s (listSet acc u (val u)) (fun v hv => hc v (by simp [hv])) ht
    rw [phase1_cons, hcl]
    dsimp only
    refine ⟨ih1, by simp [ih2], ?_, ?_⟩
    · intro v hv
      by_cases hvr : v ∈ rest
      · exact ih3 v hvr
      · rcases List.mem_cons.mp hv with hv2 | hv2
        · subst hv2
          rw [ih4 v hvr]
          exact listSet_lookup_self acc v (val v)
        · exact absurd hv2 hvr
    · intro v hv
      have hvr : v ∉ rest := fun h2 => hv (by simp [h2])
      have hvu : ¬v = u := fun h2 => hv (by simp [h2])
      rw [ih4 v hvr]
      exact listSet_lookup_ne acc u v (val u) hvu

/-- Phase 2 over broken urls none of which is cached, with pairwise
distinct storage keys: every url gets the fresh lookup's result, the
store receives one entry per url stamped `now`, foreign keys are
untouched, and foreign urls keep their accumulated results. -/
theorem phase2_fresh (ttl now : Nat) (resp : String → JsonResp) :
    ∀ (urls : List String) (s : Store ArchPayload)
      (acc : List (String × ArchResult)),
      (∀ u ∈ urls, storeLookup s (hashKey u) = none) →
      (urls.map hashKey).Nodup →
      (∀ u ∈ urls, List.lookup u (phase2 ttl now resp s acc urls).1 =
        some (archResultOf resp u)) ∧
      (∀ u ∈ urls, storeLookup (phase2 ttl now resp s acc urls).2.1
        (hashKey u) = some (Raw.entry now (archPayloadOf resp u))) ∧
      (∀ k, (∀ u ∈ urls, k ≠ hashKey u) →
        storeLookup (phase2 ttl now resp s acc urls).2.1 k =
          storeLookup s k) ∧
      (∀ u, u ∉ urls → List.lookup u (phase2 ttl now resp s acc urls).1 =
        List.lookup u acc) := by
  intro urls
  induction urls with
  | nil =>
    intro s acc _ _
    exact ⟨by simp, by simp, fun k _ => by rw [phase2_nil],
      fun u _ => by rw [phase2_nil]⟩
  | cons u rest ih =>
    intro s acc hfresh hkeys
    have hsl : storeLookup s (hashKey u) = none := hfresh u (by simp)
    have hcg : cacheGet s ttl now u = (none, s) := by
      simp [cacheGet, hsl]
    have hca : checkArchive ttl now resp s u =
        (archResultOf resp u, cacheSet s now u (archPayloadOf resp u),
         [NetEvent.arch u]) := by
      have h := checkArchive_miss ttl now resp s u (by rw [hcg])
      rw [hcg] at h
      exact h
    rw [List.map_cons] at hkeys
    have hkcons := List.nodup_cons.mp hkeys
    have hune : ∀ v ∈ rest, ¬hashKey u = hashKey v := by
      intro v hv habs
      exact hkcons.1 (habs ▸ List.mem_map_of_mem hashKey hv)
    have hurest : u ∉ rest := fun habs => hune u habs rfl
    have hfresh2 : ∀ v ∈ rest,
        storeLookup (cacheSet s now u (archPayloadOf resp u)) (hashKey v) =
          none := by
      intro v hv
      rw [cacheSet,
        storeLookup_set_ne _ _ _ _ (fun habs => hune v hv habs.symm)]
      exact hfresh v (by simp [hv])
    obtain ⟨ih1, ih2, ih3, ih4⟩ :=
      ih (cacheSet s now u (archPayloadOf resp u))
        (listSet acc u (archResultOf resp u)) hfresh2 hkcons.2
    rw [phase2_cons, hca]
    dsimp only
    refine ⟨?_, ?_, ?_, ?_⟩
    · intro v hv
      rcases List.mem_cons.mp hv with hv | hv
      · subst hv
        rw [ih4 v hurest]
        exact listSet_lookup_self acc v (archResultOf resp v)
      · exact ih1 v hv
    · intro v hv
      rcases List.mem_cons.mp hv with hv | hv
      · subst hv
        rw [ih3 (hashKey v) (hune), cacheSet, storeLookup_set_self]
      · exact ih2 v hv
    · intro k hk
      rw [ih3 k (fun v hv => hk v (by simp [hv])), cacheSet,
        storeLookup_set_ne _ _ _ _ (hk u (by simp))]
    · intro v hv
      have hvrest : v ∉ rest := fun habs => hv (by simp [habs])
      have hvu : ¬v = u := fun habs => hv (by simp [habs])
      rw [ih4 v hvrest]
      exact listSet_lookup_ne acc u v (archResultOf resp u) hvu

/-- Phase 2 over urls all of which carry a fresh cached payload: the
store is untouched, no request is issued, and every url gets the replay
of its cached payload. -/
theorem phase2_cached (ttl now t0 : Nat) (resp : String → JsonResp)
    (pval : String → ArchPayload) :
    ∀ (urls : List String) (s : Store ArchPayload)
      (acc : List (String × ArchResult)),
      (∀ u ∈ urls,
        storeLookup s (hashKey u) = some (Raw.entry t0 (pval u))) →
      now - t0 ≤ ttl →
      (phase2 ttl now resp s acc urls).2.1 = s ∧
      (phase2 ttl now resp s acc urls).2.2 = [] ∧
      (∀ u ∈ urls, List.lookup u (phase2 ttl now resp s acc urls).1 =
        some (archResultOfPayload (pval u))) ∧
      (∀ u, u ∉ urls → List.lookup u (phase2 ttl now resp s acc urls).1 =
        List.lookup u acc) := by
  intro urls
  induction urls with
  | nil =>
    intro s acc _ _
    exact ⟨rfl, rfl, by simp, fun u _ => by rw [phase2_nil]⟩
  | cons u rest ih =>
    intro s acc hc ht
    have hca : checkArchive ttl now resp s u =
        (archResultOfPayload (pval u), s, []) :=
      checkArchive_hit ttl now resp s u t0 (pval u) (hc u (by simp)) ht
    obtain ⟨ih1, ih2, ih3, ih4⟩ :=
      ih s (listSet acc u (archResultOfPayload (pval u)))
        (fun v hv => hc v (by simp [hv])) ht
    rw [phase2_cons, hca]
    dsimp only
    refine ⟨ih1, by simp [ih2], ?_, ?_⟩
    · intro v hv
      by_cases hvr : v ∈ rest
      · exact ih3 v hvr
      · rcases List.mem_cons.mp hv with hv2 | hv2
        · subst hv2
          rw [ih4 v hvr]
          exact listSet_lookup_self acc v (archResultOfPayload (pval v))
        · exact absurd hv2 hvr
    · intro v hv
      have hvr : v ∉ rest := fun h2 => hv (by simp [h2])
      have hvu : ¬v = u := fun h2 => hv (by simp [h2])
      rw [ih4 v hvr]
      exact listSet_lookup_ne acc u v (archResultOfPayload (pval u)) hvu

/-- The https upgrade of a nonempty string is nonempty. -/
theorem httpsUpgrade_ne_empty (s : String) (h : s.isEmpty = false) :
    (httpsUpgrade s).isEmpty = false := by
  unfold httpsUpgrade
  split
  · rw [Bool.eq_false_iff]
    intro habs
    rw [String.isEmpty_iff] at habs
    have hd := congrArg String.data habs
    rw [String.data_append] at hd
    exact absurd (List.append_eq_nil.mp hd).1 (by decide)
  · exact h

/-- Replaying a freshly stored lookup payload reproduces the fresh
result, provided an available response carries a nonempty snapshot url
and timestamp (the wire contract). -/
theorem archResultOfPayload_roundtrip (resp : String → JsonResp)
    (u : String) (hwf : respWF (resp u) = true) :
    archResultOfPayload (archPayloadOf resp u) = archResultOf resp u := by
  cases hr : resp u with
  | nullResp =>
    simp [archPayloadOf, archResultOf, archResultOfPayload, jsTruthy, hr]
  | noSnapshots =>
    simp [archPayloadOf, archResultOf, archResultOfPayload, jsTruthy, hr]
  | noClosest =>
    simp [archPayloadOf, archResultOf, archResultOfPayload, jsTruthy, hr]
  | closest a su st =>
    cases a with
    | false =>
      simp [archPayloadOf, archResultOf, archResultOfPayload, jsTruthy, hr]
    | true =>
      rw [hr] at hwf
      simp only [respWF, Bool.and_eq_true, Bool.not_eq_true'] at hwf
      have h3 : (httpsUpgrade su).isEmpty = false :=
        httpsUpgrade_ne_empty su hwf.1
      simp [archPayloadOf, archResultOf, archResultOfPayload, jsTruthy, hr,
        h3, hwf.2]

/-! ### Traces of the two phases -/

/-- A liveness check issues no request or exactly its own probe. -/
theorem checkLiveness_events (ttl now : Nat) (live : String → Bool)
    (s : Store Bool) (url : String) :
    (checkLiveness ttl now live s url).2.2 = [] ∨
    (checkLiveness ttl now live s url).2.2 = [NetEvent.live url] := by
  rcases hcg : cacheGet s ttl now url with ⟨v, s1⟩
  cases v with
  | none => right; simp [checkLiveness, hcg]
  | some p => left; obtain ⟨t, b⟩ := p; simp [checkLiveness, hcg]

/-- An archive lookup issues no request or exactly its own lookup. -/
theorem checkArchive_events (ttl now : Nat) (resp : String → JsonResp)
    (s : Store ArchPayload) (url : String) :
    (checkArchive ttl now resp s url).2.2 = [] ∨
    (checkArchive ttl now resp s url).2.2 = [NetEvent.arch url] := by
  rcases hcg : cacheGet s ttl now url with ⟨v, s1⟩
  cases v with
  | some p => left; obtain ⟨t, q⟩ := p; simp [checkArchive, hcg]
  | none =>
    right
    cases hr : resp url with
    | nullResp => simp [checkArchive, hcg, hr]
    | noSnapshots => simp [checkArchive, hcg, hr]
    | noClosest => simp [checkArchive, hcg, hr]
    | closest a su st => cases a <;> simp [checkArchive, hcg, hr]

/-- Every phase-1 request is a liveness probe for one of its urls. -/
theorem phase1_events (ttl now : Nat) (live : String → Bool) :
    ∀ (urls : List String) (s : Store Bool) (acc : List (String × Bool)),
      ∀ e ∈ (phase1 ttl now live s acc urls).2.2,
        ∃ u ∈ urls, e = NetEvent.live u := by
  intro urls
  induction urls with
  | nil => intro s acc e he; rw [phase1_nil] at he; simp at he
  | cons u rest ih =>
    intro s acc e he
    rw [phase1_cons] at he
    rcases List.mem_append.mp he with h | h
    · rcases checkLiveness_events ttl now live s u with hev | hev
      · rw [hev] at h; simp at h
      · rw [hev] at h
        simp only [List.mem_singleton] at h
        exact ⟨u, by simp, h⟩
    · obtain ⟨v, hv, he2⟩ := ih _ _ e h
      exact ⟨v, by simp [hv], he2⟩

/-- Every phase-2 request is an availability lookup for one of its urls. -/
theorem phase2_events (ttl now : Nat) (resp : String → JsonResp) :
    ∀ (urls : List String) (s : Store ArchPayload)
      (acc : List (String × ArchResult)),
      ∀ e ∈ (phase2 ttl now resp s acc urls).2.2,
        ∃ u ∈ urls, e = NetEvent.arch u := by
  intro urls
  induction urls with
  | nil => intro s acc e he; rw [phase2_nil] at he; simp at he
  | cons u rest ih =>
    intro s acc e he
    rw [phase2_cons] at he
    rcases List.mem_append.mp he with h | h
    · rcases checkArchive_events ttl now resp s u with hev | hev
      · rw [hev] at h; simp at h
      · rw [hev] at h
        simp only [List.mem_singleton] at h
        exact ⟨u, by simp, h⟩
    · obtain ⟨v, hv, he2⟩ := ih _ _ e h
      exact ⟨v, by simp [hv], he2⟩

/-- Witness for `checkArchive_not_archived_cached`: an empty archive
cache and an endpoint that times out, re-read one second later. -/
theorem checkArchive_not_archived_cached_witness :
    (cacheGet ([] : Store ArchPayload) (archTTL defaultConfig) 5 "y").1 =
      none ∧
    hasSnapshot ((fun _ : String => JsonResp.nullResp) "y") = false ∧
    (checkArchive (archTTL defaultConfig) 5
        (fun _ => JsonResp.nullResp) [] "y").1 = ⟨false, none, none⟩ ∧
    (checkArchive (archTTL defaultConfig) 6 (fun _ => JsonResp.nullResp)
        (checkArchive (archTTL defaultConfig) 5
          (fun _ => JsonResp.nullResp) [] "y").2.1 "y").2.2 = [] := by
  have h := checkArchive_not_archived_cached (archTTL defaultConfig) 5
    (fun _ => JsonResp.nullResp) [] "y" rfl rfl
  exact ⟨rfl, rfl, h.1, (h.2.2.2 6 (by decide)).2⟩

/-- C1: in every run, an availability lookup is issued only for urls whose
recorded liveness result is false; the trace is all phase-1 probes
followed by all phase-2 lookups (the `Promise.all` barrier); and if every
url came back alive, no availability lookup is issued at all. -/
theorem init_phase_ordering (cfg : Config) (live : String → Bool)
    (resp : String → JsonResp) (ls : Store Bool) (as : Store ArchPayload)
    (now : Nat) (order : List String) :
    (∀ u, NetEvent.arch u ∈ (runInit cfg live resp ls as now order).trace →
      ∃ r ∈ (runInit cfg live resp ls as now order).results,
        r.url = u ∧ r.alive = false) ∧
    (runInit cfg live resp ls as now order).trace =
      (runInit cfg live resp ls as now order).trace.filter NetEvent.isLive ++
        (runInit cfg live resp ls as now order).trace.filter NetEvent.isArch ∧
    ((∀ r ∈ (runInit cfg live resp ls as now order).results,
        r.alive = true) →
      (runInit cfg live resp ls as now order).trace.filter NetEvent.isArch =
        []) := by
  simp only [runInit]
  set urls := order.take cfg.maxLinksPerPage with hurls
  set p1 := phase1 (liveTTL cfg) now live ls [] urls with hp1
  set broken := urls.filter (fun u => !((List.lookup u p1.1).getD false))
    with hbrk
  have htr1 : ∀ e ∈ p1.2.2, ∃ u ∈ urls, e = NetEvent.live u :=
    phase1_events (liveTTL cfg) now live urls ls []
  have htr1live : List.filter NetEvent.isLive p1.2.2 = p1.2.2 := by
    apply List.filter_eq_self.mpr
    intro e he
    obtain ⟨u, _, heq⟩ := htr1 e he
    rw [heq]; rfl
  have htr1arch : List.filter NetEvent.isArch p1.2.2 = [] := by
    apply List.filter_eq_nil_iff.mpr
    intro e he
    obtain ⟨u, _, heq⟩ := htr1 e he
    rw [heq]; simp [NetEvent.isArch]
  by_cases hb : broken.isEmpty
  · rw [if_pos hb]
    refine ⟨?_, ?_, ?_⟩
    · intro u hu
      obtain ⟨v, _, heq⟩ := htr1 (NetEvent.arch u) hu
      simp at heq
    · show p1.2.2 = List.filter NetEvent.isLive p1.2.2 ++
        List.filter NetEvent.isArch p1.2.2
      rw [htr1live, htr1arch, List.append_nil]
    · intro _
      exact htr1arch
  · rw [if_neg hb]
    set p2 := phase2 (archTTL cfg) now resp as [] broken with hp2
    have htr2 : ∀ e ∈ p2.2.2, ∃ u ∈ broken, e = NetEvent.arch u :=
      phase2_events (archTTL cfg) now resp broken as []
    have htr2arch : List.filter NetEvent.isArch p2.2.2 = p2.2.2 := by
      apply List.filter_eq_self.mpr
      intro e he
      obtain ⟨u, _, heq⟩ := htr2 e he
      rw [heq]; rfl
    have htr2live : List.filter NetEvent.isLive p2.2.2 = [] := by
      apply List.filter_eq_nil_iff.mpr
      intro e he
      obtain ⟨u, _, heq⟩ := htr2 e he
      rw [heq]; simp [NetEvent.isLive]
    have hbmem : ∀ u ∈ broken,
        u ∈ urls ∧ (List.lookup u p1.1).getD false = false := by
      intro u hu
      rw [hbrk] at hu
      have := List.mem_filter.mp hu
      exact ⟨this.1, by simpa using this.2⟩
    refine ⟨?_, ?_, ?_⟩
    · intro u hu
      show ∃ r ∈ urls.map (fun u => CheckResult.mk u
          ((List.lookup u p1.1).getD false)
          (if (List.lookup u p1.1).getD false then none
           else List.lookup u p2.1)), r.url = u ∧ r.alive = false
      have hu2 : NetEvent.arch u ∈ p1.2.2 ++ p2.2.2 := hu
      rcases List.mem_append.mp hu2 with h | h
      · obtain ⟨v, _, heq⟩ := htr1 (NetEvent.arch u) h
        simp at heq
      · obtain ⟨v, hv, heq⟩ := htr2 (NetEvent.arch u) h
        have huv : u = v := by
          simpa [NetEvent.arch.injEq] using heq
        subst huv
        obtain ⟨hmem, hfalse⟩ := hbmem u hv
        refine ⟨CheckResult.mk u ((List.lookup u p1.1).getD false)
          (if (List.lookup u p1.1).getD false then none
           else List.lookup u p2.1), List.mem_map_of_mem _ hmem, rfl, hfalse⟩
    · show p1.2.2 ++ p2.2.2 =
        List.filter NetEvent.isLive (p1.2.2 ++ p2.2.2) ++
          List.filter NetEvent.isArch (p1.2.2 ++ p2.2.2)
      rw [List.filter_append, List.filter_append, htr1live, htr2live,
        htr1arch, htr2arch, List.append_nil, List.nil_append]
    · intro hall
      exfalso
      have hne : broken ≠ [] := by
        intro habs
        rw [habs] at hb
        exact hb rfl
      obtain ⟨u, hu⟩ := List.exists_mem_of_ne_nil broken hne
      obtain ⟨hmem, hfalse⟩ := hbmem u hu
      have hr := hall (CheckResult.mk u ((List.lookup u p1.1).getD false)
          (if (List.lookup u p1.1).getD false then none
           else List.lookup u p2.1)) (List.mem_map_of_mem _ hmem)
      simp only at hr
      rw [hfalse] at hr
      exact Bool.false_ne_true hr

/-- Witness for `init_phase_ordering`: two urls, one alive and one
broken; the lookup for the broken one is matched to its dead result. -/
theorem init_phase_ordering_witness :
    ∃ r ∈ (runInit defaultConfig (fun u => u == "a")
        (fun _ => JsonResp.nullResp) [] [] 0 ["a", "b"]).results,
      r.url = "b" ∧ r.alive = false :=
  (init_phase_ordering defaultConfig (fun u => u == "a")
    (fun _ => JsonResp.nullResp) [] [] 0 ["a", "b"]).1 "b" (by decide)

/-- The deduplicated order contains no repeated url. -/
theorem collectOrder_nodup (hrefs : List String) :
    (collectOrder hrefs).Nodup := by
  suffices h : ∀ (l : List String) (acc : List String), acc.Nodup →
      (l.foldl (fun acc h => if h ∈ acc then acc else acc ++ [h]) acc).Nodup by
    exact h hrefs [] List.nodup_nil
  intro l
  induction l with
  | nil => intro acc h; exact h
  | cons x t ih =>
    intro acc hacc
    simp only [List.foldl]
    by_cases hx : x ∈ acc
    · rw [if_pos hx]; exact ih acc hacc
    · rw [if_neg hx]
      apply ih
      rw [List.nodup_append]
      refine ⟨hacc, List.nodup_singleton x, ?_⟩
      intro a ha hax
      simp only [List.mem_singleton] at hax
      exact hx (hax ▸ ha)

/-- C3: when the deduplicated url order is longer than the configured
cap, exactly the first `maxLinksPerPage` urls — in discovery order — get
a result, one each; every url past the cap gets no result and no request
is ever issued for it (and the run is total: dropping it raises no
error). -/
theorem init_cap_spec (cfg : Config) (live : String → Bool)
    (resp : String → JsonResp) (ls : Store Bool) (as : Store ArchPayload)
    (now : Nat) (hrefs : List String)
    (hlong : cfg.maxLinksPerPage < (collectOrder hrefs).length) :
    (runInit cfg live resp ls as now (collectOrder hrefs)).results.map
        CheckResult.url =
      (collectOrder hrefs).take cfg.maxLinksPerPage ∧
    (runInit cfg live resp ls as now (collectOrder hrefs)).results.length =
      cfg.maxLinksPerPage ∧
    ∀ u ∈ (collectOrder hrefs).drop cfg.maxLinksPerPage,
      (∀ r ∈ (runInit cfg live resp ls as now (collectOrder hrefs)).results,
        r.url ≠ u) ∧
      (∀ e ∈ (runInit cfg live resp ls as now (collectOrder hrefs)).trace,
        e.url ≠ u) := by
  have hnd : (collectOrder hrefs).Nodup := collectOrder_nodup hrefs
  simp only [runInit]
  set order := collectOrder hrefs with horder
  set urls := order.take cfg.maxLinksPerPage with hurls
  set p1 := phase1 (liveTTL cfg) now live ls [] urls with hp1
  set broken := urls.filter (fun u => !((List.lookup u p1.1).getD false))
    with hbrk
  have hmapurl : ∀ (g : String → CheckResult), (∀ v, (g v).url = v) →
      (urls.map g).map CheckResult.url = urls := by
    intro g hg
    rw [List.map_map]
    have hcomp : CheckResult.url ∘ g = id := funext hg
    rw [hcomp, List.map_id]
  have hlen : urls.length = cfg.maxLinksPerPage := by
    rw [hurls, List.length_take]
    omega
  have hdisj : ∀ u ∈ order.drop cfg.maxLinksPerPage, u ∉ urls := by
    have h := hnd
    rw [← List.take_append_drop cfg.maxLinksPerPage order,
      List.nodup_append] at h
    intro u hu hin
    exact h.2.2 hin hu
  have htr1 : ∀ e ∈ p1.2.2, ∃ u ∈ urls, e = NetEvent.live u :=
    phase1_events (liveTTL cfg) now live urls ls []
  have hbsub : ∀ u ∈ broken, u ∈ urls := by
    intro u hu
    rw [hbrk] at hu
    exact (List.mem_filter.mp hu).1
  by_cases hb : broken.isEmpty
  · rw [if_pos hb]
    refine ⟨hmapurl _ (fun v => rfl), ?_, ?_⟩
    · show (urls.map _).length = cfg.maxLinksPerPage
      rw [List.length_map, hlen]
    · intro u hu
      constructor
      · intro r hr habs
        obtain ⟨v, hv, hrv⟩ := List.mem_map.mp hr
        have : v = u := by rw [← hrv] at habs; exact habs
        exact hdisj u hu (this ▸ hv)
      · intro e he habs
        obtain ⟨v, hv, hev⟩ := htr1 e he
        have : v = u := by rw [hev] at habs; exact habs
        exact hdisj u hu (this ▸ hv)
  · rw [if_neg hb]
    set p2 := phase2 (archTTL cfg) now resp as [] broken with hp2
    have htr2 : ∀ e ∈ p2.2.2, ∃ u ∈ broken, e = NetEvent.arch u :=
      phase2_events (archTTL cfg) now resp broken as []
    refine ⟨hmapurl _ (fun v => rfl), ?_, ?_⟩
    · show (urls.map _).length = cfg.maxLinksPerPage
      rw [List.length_map, hlen]
    · intro u hu
      constructor
      · intro r hr habs
        obtain ⟨v, hv, hrv⟩ := List.mem_map.mp hr
        have : v = u := by rw [← hrv] at habs; exact habs
        exact hdisj u hu (this ▸ hv)
      · intro e he habs
        rcases List.mem_append.mp he with h | h
        · obtain ⟨v, hv, hev⟩ := htr1 e h
          have : v = u := by rw [hev] at habs; exact habs
          exact hdisj u hu (this ▸ hv)
        · obtain ⟨v, hv, hev⟩ := htr2 e h
          have : v = u := by rw [hev] at habs; exact habs
          exact hdisj u hu (this ▸ hbsub v hv)

/-- C6: a second run over the same url set, against the caches the first
run wrote, when the elapsed time stays below both TTLs and the urls'
storage keys do not collide: the second run issues zero network requests
(no liveness fetches and no archive lookups) and returns the same
CheckResults.  An available response is assumed to carry a nonempty
snapshot url and timestamp, per the wire contract. -/
theorem init_idempotent (cfg : Config) (live : String → Bool)
    (resp : String → JsonResp) (t1 t2 : Nat) (order : List String)
    (hnd : order.Nodup)
    (hinj : ∀ u1 ∈ order, ∀ u2 ∈ order, hashKey u1 = hashKey u2 → u1 = u2)
    (hwf : ∀ u ∈ order, respWF (resp u) = true)
    (htl : t2 - t1 < liveTTL cfg) (hta : t2 - t1 < archTTL cfg) :
    (runInit cfg live resp (runInit cfg live resp [] [] t1 order).liveStore
        (runInit cfg live resp [] [] t1 order).archStore t2 order).results =
      (runInit cfg live resp [] [] t1 order).results ∧
    (runInit cfg live resp (runInit cfg live resp [] [] t1 order).liveStore
        (runInit cfg live resp [] [] t1 order).archStore t2 order).trace =
      [] := by
  simp only [runInit]
  set urls := order.take cfg.maxLinksPerPage with hurls
  have hsub : ∀ u ∈ urls, u ∈ order := by
    intro u hu
    rw [hurls] at hu
    exact List.take_subset _ _ hu
  have hundup : urls.Nodup := by
    rw [hurls]
    exact (List.take_sublist _ _).nodup hnd
  have hkeys : (urls.map hashKey).Nodup :=
    hundup.map_on (fun x hx y hy h => hinj x (hsub x hx) y (hsub y hy) h)
  set p1 := phase1 (liveTTL cfg) t1 live [] [] urls with hp1
  obtain ⟨A1, A2, A3, A4⟩ :=
    phase1_fresh (liveTTL cfg) t1 live urls [] [] (fun u _ => rfl) hkeys
  rw [← hp1] at A1 A2 A3 A4
  have hfilter1 : urls.filter (fun u => !((List.lookup u p1.1).getD false)) =
      urls.filter (fun u => !(live u)) := by
    apply List.filter_congr
    intro u hu
    rw [A1 u hu]
    simp
  rw [hfilter1]
  by_cases hb : (urls.filter (fun u => !(live u))).isEmpty = true
  · rw [if_pos hb]
    dsimp only
    set p1' := phase1 (liveTTL cfg) t2 live p1.2.1 [] urls with hp1'
    obtain ⟨B1, B2, B3, B4⟩ :=
      phase1_cached (liveTTL cfg) t2 t1 live live urls p1.2.1 []
        (fun u hu => A2 u hu) (by omega)
    rw [← hp1'] at B1 B2 B3 B4
    have hfilter2 : urls.filter
        (fun u => !((List.lookup u p1'.1).getD false)) =
        urls.filter (fun u => !(live u)) := by
      apply List.filter_congr
      intro u hu
      rw [B3 u hu]
      simp
    rw [hfilter2, if_pos hb]
    dsimp only
    constructor
    · apply List.map_congr_left
      intro u hu
      dsimp only
      rw [A1 u hu, B3 u hu]
    · exact B2
  · rw [if_neg hb]
    dsimp only
    set brk := urls.filter (fun u => !(live u)) with hbrk
    have hbsub : ∀ u ∈ brk, u ∈ urls := by
      intro u hu
      rw [hbrk] at hu
      exact (List.mem_filter.mp hu).1
    have hbkeys : (brk.map hashKey).Nodup := by
      have hsb : List.Sublist (brk.map hashKey) (urls.map hashKey) := by
        rw [hbrk]
        exact (List.filter_sublist _).map hashKey
      exact hsb.nodup hkeys
    set p2 := phase2 (archTTL cfg) t1 resp [] [] brk with hp2
    obtain ⟨C1, C2, C3, C4⟩ :=
      phase2_fresh (archTTL cfg) t1 resp brk [] [] (fun u _ => rfl) hbkeys
    rw [← hp2] at C1 C2 C3 C4
    set p1' := phase1 (liveTTL cfg) t2 live p1.2.1 [] urls with hp1'
    obtain ⟨B1, B2, B3, B4⟩ :=
      phase1_cached (liveTTL cfg) t2 t1 live live urls p1.2.1 []
        (fun u hu => A2 u hu) (by omega)
    rw [← hp1'] at B1 B2 B3 B4
    have hfilter2 : urls.filter
        (fun u => !((List.lookup u p1'.1).getD false)) =
        urls.filter (fun u => !(live u)) := by
      apply List.filter_congr
      intro u hu
      rw [B3 u hu]
      simp
    rw [hfilter2, ← hbrk, if_neg hb]
    dsimp only
    set p2' := phase2 (archTTL cfg) t2 resp p2.2.1 [] brk with hp2'
    obtain ⟨D1, D2, D3, D4⟩ :=
      phase2_cached (archTTL cfg) t2 t1 resp (fun u => archPayloadOf resp u)
        brk p2.2.1 [] (fun u hu => C2 u hu) (by omega)
    rw [← hp2'] at D1 D2 D3 D4
    constructor
    · apply List.map_congr_left
      intro u hu
      dsimp only
      rw [A1 u hu, B3 u hu]
      by_cases hlv : live u = true
      · simp [hlv]
      · have hub : u ∈ brk := by
          rw [hbrk]
          exact List.mem_filter.mpr ⟨hu, by simp [hlv]⟩
        have e1 := C1 u hub
        have e2 := D3 u hub
        rw [archResultOfPayload_roundtrip resp u (hwf u (hsub u hu))] at e2
        simp only [Option.getD_some, Bool.not_eq_true] at hlv ⊢
        rw [hlv]
        simp only [Bool.false_eq_true, if_false]
        rw [e1, e2]
    · rw [B2, D2]
      rfl

/-- Witness for `init_idempotent`: two urls, one alive and one broken,
probed at t=0 and re-run at t=1 against the caches of the first run. -/
theorem init_idempotent_witness :
    (["a", "b"] : List String).Nodup ∧
    ((runInit defaultConfig (fun u => u == "a")
        (fun _ => JsonResp.nullResp)
        (runInit defaultConfig (fun u => u == "a")
          (fun _ => JsonResp.nullResp) [] [] 0 ["a", "b"]).liveStore
        (runInit defaultConfig (fun u => u == "a")
          (fun _ => JsonResp.nullResp) [] [] 0 ["a", "b"]).archStore
        1 ["a", "b"]).results =
      (runInit defaultConfig (fun u => u == "a")
        (fun _ => JsonResp.nullResp) [] [] 0 ["a", "b"]).results ∧
     (runInit defaultConfig (fun u => u == "a")
        (fun _ => JsonResp.nullResp)
        (runInit defaultConfig (fun u => u == "a")
          (fun _ => JsonResp.nullResp) [] [] 0 ["a", "b"]).liveStore
        (runInit defaultConfig (fun u => u == "a")
          (fun _ => JsonResp.nullResp) [] [] 0 ["a", "b"]).archStore
        1 ["a", "b"]).trace = []) :=
  ⟨by decide,
   init_idempotent defaultConfig (fun u => u == "a")
     (fun _ => JsonResp.nullResp) 0 1 ["a", "b"] (by decide) (by decide)
     (by decide) (by decide) (by decide)⟩

/-- Witness for `init_cap_spec`: a cap of 2 over three distinct urls
(with one duplicate in the raw hrefs). -/
theorem init_cap_spec_witness :
    (2 : Nat) < (collectOrder ["a", "b", "a", "c"]).length ∧
    (runInit ⟨7, 1, 350, 2, 6⟩ (fun _ => true) (fun _ => JsonResp.nullResp)
        [] [] 0 (collectOrder ["a", "b", "a", "c"])).results.map
        CheckResult.url =
      (collectOrder ["a", "b", "a", "c"]).take 2 :=
  ⟨by decide,
   (init_cap_spec ⟨7, 1, 350, 2, 6⟩ (fun _ => true)
     (fun _ => JsonResp.nullResp) [] [] 0 ["a", "b", "a", "c"]
     (by decide)).1⟩

end WLP
